import Mathlib

set_option maxRecDepth 4000

/-!
Verification of the RogueMage rule-evaluation and incremental-caching engine.

The definitions below are a shallow embedding of the Rust source:
released floating point values (f32) are embedded as rationals, so every
arithmetic identity is exact; the callback-passing iteration style of the
source (closures fed to for_each / select) is embedded as functions
returning lists, preserving the order in which the callbacks fire.

Source files embedded: src/spells.rs, src/storage.rs, src/sparse_matrices.rs,
src/rules.rs, src/blocks.rs.  The revision of the chemistry module that
defines WorldInfo, Target, Property and AABBCollider is not present in the
repository snapshot (only its callers are); those definitions are modelled
from the specification and are marked as such.
-/

namespace RogueMage

/-- DynamicProperty: accumulated per-object scalar tags.  Modelled from the
spec: the defining chemistry module is missing from src; the constructors are
those used by src/spells.rs and src/rules.rs (Burning, Forwards, Mana). -/
inductive DynamicProperty where
  | Burning
  | Forwards
  | Mana (id : Nat)
deriving DecidableEq, Repr

/-- StaticProperty: derived boolean tags.  Modelled from the spec; the
constructors are those used by src/spells.rs and src/rules.rs. -/
inductive StaticProperty where
  | IsEntity
  | Liquid
deriving DecidableEq, Repr

/-- Property: a predicate tag over an Object, per spec section 3.  Modelled
from the spec: the defining chemistry module is missing from src. -/
inductive Property where
  | Material (id : Nat)
  | Dynamic (p : DynamicProperty)
  | Static (p : StaticProperty)
deriving DecidableEq, Repr

/-- Target: a simulation subject, either a grid cell or a free entity.
Modelled from the spec (data model, Object); matches the uses in
src/spells.rs and src/rules.rs. -/
inductive Target where
  | Block (x y : Int)
  | Entity (id : Nat)
deriving DecidableEq, Repr

/-- GRID_SIZE from src/cells.rs (the grid is GRID_SIZE x GRID_SIZE). -/
def GRID_SIZE : Int := 128

/-- Axis-aligned bounding box of a free entity.  Modelled from the spec:
the defining module is missing from src.  Corners are (x, y) pairs. -/
structure AABBCollider where
  ll : ℚ × ℚ
  ur : ℚ × ℚ
deriving DecidableEq, Repr

/-- Modelled from the spec: standard closed-interval AABB overlap test,
used by Target.for_each_adjacent in src/spells.rs. -/
def AABBCollider.intersects (a b : AABBCollider) : Bool :=
  decide (a.ll.1 ≤ b.ur.1 ∧ b.ll.1 ≤ a.ur.1 ∧ a.ll.2 ≤ b.ur.2 ∧ b.ll.2 ≤ a.ur.2)

/-- Modelled from the spec: the unit cell of block (x, y), used by
Target.for_each_adjacent in src/spells.rs. -/
def AABBCollider.from_block (x y : Int) : AABBCollider :=
  ⟨((x : ℚ), (y : ℚ)), ((x : ℚ) + 1, (y : ℚ) + 1)⟩

/-- Per-block boolean physics flags, from src/blocks.rs (BlockProperties
bitflags; the rules.rs revision calls them PhysicsFlags). -/
inductive PhysicsFlags where
  | MOVED_THIS_STEP
  | POWDER_STABLE
  | BURNING
  | CHANGED_THIS_STEP
deriving DecidableEq, Repr

/-- Block physics classes, from src/blocks.rs. -/
inductive BlockPhysics where
  | None
  | Solid
  | Powder
  | Liquid
deriving DecidableEq, Repr

/-- The per-cell block value, from src/blocks.rs.  The bitflags word is
embedded as four named booleans. -/
structure Block where
  id : Nat
  color_seed : Nat
  damage : Nat
  moved_this_step : Bool
  powder_stable : Bool
  burning : Bool
  changed_this_step : Bool
deriving DecidableEq, Repr

/-- Block.get from src/blocks.rs: read one stored flag. -/
def Block.get : Block → PhysicsFlags → Bool
  | b, .MOVED_THIS_STEP => b.moved_this_step
  | b, .POWDER_STABLE => b.powder_stable
  | b, .BURNING => b.burning
  | b, .CHANGED_THIS_STEP => b.changed_this_step

/-- Block.set from src/blocks.rs: write one stored flag. -/
def Block.set (b : Block) : PhysicsFlags → Bool → Block
  | .MOVED_THIS_STEP, v => { b with moved_this_step := v }
  | .POWDER_STABLE, v => { b with powder_stable := v }
  | .BURNING, v => { b with burning := v }
  | .CHANGED_THIS_STEP, v => { b with changed_this_step := v }

/-- Static per-material data, from src/blocks.rs.  The two cosmetic colors
are omitted: rendering is outside the verified core (spec section 1). -/
structure BlockData where
  name : String
  density : ℚ
  physics : BlockPhysics
  powder_stability : ℚ

instance : Inhabited BlockData := ⟨⟨"", 0, .None, 0⟩⟩

/-- The material table ALL_BLOCK_DATA from src/blocks.rs (densities,
physics classes and stability constants copied verbatim). -/
def ALL_BLOCK_DATA : List BlockData :=
  [ ⟨"Air", 1/10, .None, 0⟩,
    ⟨"Stone", 1, .Solid, 0⟩,
    ⟨"Water", 1/2, .Liquid, 0⟩,
    ⟨"Sand", 8/10, .Powder, 3/10⟩,
    ⟨"Wood", 1, .Solid, 0⟩,
    ⟨"Coal", 1, .Powder, 7/10⟩,
    ⟨"Fire", 1/10, .None, 0⟩,
    ⟨"Smoke", 1/20, .Liquid, 0⟩,
    ⟨"Steam", 1/20, .Liquid, 0⟩ ]

/-- get_id from src/blocks.rs: index of a material name in the table. -/
def get_id (name : String) : Nat :=
  ALL_BLOCK_DATA.findIdx (fun x => x.name == name)

def AIR : Nat := get_id "Air"

def STONE : Nat := get_id "Stone"

def WATER : Nat := get_id "Water"

def SAND : Nat := get_id "Sand"

def WOOD : Nat := get_id "Wood"

def COAL : Nat := get_id "Coal"

def FIRE : Nat := get_id "Fire"

def SMOKE : Nat := get_id "Smoke"

def STEAM : Nat := get_id "Steam"

/-- Block.data from src/blocks.rs: table lookup by material id.  The source
unwraps; an out-of-range id panics there and yields the default here. -/
def Block.data (b : Block) : BlockData :=
  (ALL_BLOCK_DATA.get? b.id).getD default

/-- Block.new from src/blocks.rs (color_seed is randomized in the source;
it is cosmetic only and embedded as 0). -/
def Block.new (id : Nat) : Block :=
  ⟨id, 0, 0, false, false, false, false⟩

/-- The World Model.  Modelled from the spec (section 4.1): the defining
chemistry-module revision is missing from src.  It owns the dense block
grid, the per-object Dynamic-property side map, and the entity bounds
supplied by the external physics system. -/
structure WorldInfo where
  blocks : Int × Int → Block
  dynamics : Target → DynamicProperty → ℚ
  entity_colliders : List (Nat × AABBCollider)
  next_entity : Nat

/-- Modelled from the spec: get(object) returns None outside grid bounds. -/
def WorldInfo.get_block (info : WorldInfo) (x y : Int) : Option Block :=
  if 0 ≤ x ∧ x < GRID_SIZE ∧ 0 ≤ y ∧ y < GRID_SIZE then some (info.blocks (x, y)) else none

/-- Modelled from the spec: overwrite the cell value. -/
def WorldInfo.set_block (info : WorldInfo) (x y : Int) (b : Block) : WorldInfo :=
  { info with blocks := fun p => if p = (x, y) then b else info.blocks p }

/-- Modelled from the spec: scalar reading of a Property at an object.
Material and Static read the grid directly (weight 1 or 0); Dynamic reads
the accumulated side map. -/
def WorldInfo.get (info : WorldInfo) (t : Target) (p : Property) : ℚ :=
  match p with
  | .Dynamic d => info.dynamics t d
  | .Material id =>
      match t with
      | .Block x y => if (info.blocks (x, y)).id = id then 1 else 0
      | .Entity _ => 0
  | .Static .IsEntity =>
      match t with
      | .Block _ _ => 0
      | .Entity _ => 1
  | .Static .Liquid =>
      match t with
      | .Block x y => if (info.blocks (x, y)).data.physics = .Liquid then 1 else 0
      | .Entity _ => 0

/-- Modelled from the spec: set the Dynamic-property scalar of one object. -/
def WorldInfo.set (info : WorldInfo) (t : Target) (d : DynamicProperty) (v : ℚ) : WorldInfo :=
  { info with dynamics := fun t' d' => if t' = t ∧ d' = d then v else info.dynamics t' d' }

/-- Modelled from the spec (section 4.5): swap the per-object Dynamic
property state between two objects. -/
def WorldInfo.swap_properties (info : WorldInfo) (a b : Target) : WorldInfo :=
  { info with dynamics := fun t d =>
      if t = a then info.dynamics b d
      else if t = b then info.dynamics a d
      else info.dynamics t d }

/-- An inclusive integer range as a list, for the entity branch of
Target.for_each_adjacent (Rust lo..=hi). -/
def intRangeIncl (lo hi : Int) : List Int :=
  (List.range (hi + 1 - lo).toNat).map fun i => lo + i

/-- Target.for_each_adjacent from src/spells.rs, with the callback turned
into a returned list in callback-firing order.  A Block source scans the
3x3 offset square skipping (0,0) and out-of-bounds cells, then every entity
whose collider intersects the cell of the block.  An Entity source scans the
cells covered by its collider, then every other overlapping entity.  The
source unwraps the collider lookup of an Entity source (a missing collider
panics there); that arm is embedded as the empty enumeration. -/
def Target.for_each_adjacent (info : WorldInfo) : Target → List Target
  | .Block x y =>
      (([-1, 0, 1] : List Int).flatMap fun x2 =>
        ([-1, 0, 1] : List Int).filterMap fun y2 =>
          if (¬(x2 = 0 ∧ y2 = 0)) ∧ 0 ≤ x + x2 ∧ x + x2 < GRID_SIZE
              ∧ 0 ≤ y + y2 ∧ y + y2 < GRID_SIZE then
            some (.Block (x + x2) (y + y2))
          else none)
      ++ info.entity_colliders.filterMap fun ec =>
          if ec.2.intersects (AABBCollider.from_block x y) then some (.Entity ec.1) else none
  | .Entity e =>
      match info.entity_colliders.lookup e with
      | none => []
      | some c =>
          ((intRangeIncl ⌊c.ll.1⌋ ⌈c.ur.1⌉).flatMap fun x =>
            (intRangeIncl ⌊c.ll.2⌋ ⌈c.ur.2⌉).filterMap fun y =>
              if 0 ≤ x ∧ x < GRID_SIZE ∧ 0 ≤ y ∧ y < GRID_SIZE then
                some (.Block x y)
              else none)
          ++ info.entity_colliders.filterMap fun ec =>
              if e ≠ ec.1 ∧ c.intersects ec.2 then some (.Entity ec.1) else none

/-- A selected object together with its connection weight, from
src/spells.rs (struct SpellTarget). -/
structure SpellTarget where
  target : Target
  connection : ℚ
deriving DecidableEq, Repr

/-- SpellTarget::new from src/spells.rs: connection starts at 1.0. -/
def SpellTarget.new (target : Target) : SpellTarget :=
  ⟨target, 1⟩

/-- The selector expression tree of this revision, from src/spells.rs.
This revision has no Identity constructor. -/
inductive SpellSelector where
  | Adjacent
  | Is (p : Property)
  | Not (s : SpellSelector)
  | Bind (left right : SpellSelector)
deriving DecidableEq, Repr

/-- SpellSelector::select from src/spells.rs: evaluate a selector at a
source target, producing the callback results in order.  Not fires the
source (weight 1) exactly when the inner selector fired no callback.  In
the source, the Bind arm is the mutual pair select/select_spell; the two
select_spell calls are inlined here so that the recursion is structural
(select_spell is defined right below, and the lemma select_bind_spell
recovers the mutual formulation definitionally). -/
def SpellSelector.select (info : WorldInfo) : SpellSelector → Target → List SpellTarget
  | .Adjacent, target => (target.for_each_adjacent info).map SpellTarget.new
  | .Is property, target =>
      if info.get target property ≠ 0 then [SpellTarget.new target] else []
  | .Not selector, target =>
      if (SpellSelector.select info selector target).isEmpty then [SpellTarget.new target]
      else []
  | .Bind left right, target =>
      ((SpellSelector.select info left (SpellTarget.new target).target).map fun result =>
          (⟨result.target, (SpellTarget.new target).connection * result.connection⟩ : SpellTarget)).flatMap
        fun nt =>
          (SpellSelector.select info right nt.target).map fun result =>
            (⟨result.target, nt.connection * result.connection⟩ : SpellTarget)

/-- SpellSelector::select_spell from src/spells.rs: evaluate at the carried
target and multiply connections through. -/
def SpellSelector.select_spell (info : WorldInfo) (s : SpellSelector) (st : SpellTarget) :
    List SpellTarget :=
  (SpellSelector.select info s st.target).map fun result =>
    ⟨result.target, st.connection * result.connection⟩

/-- The Bind arm of select is exactly the mutual call of the source:
apply left at the fresh spell target, then feed every result through
right via select_spell. -/
theorem select_bind_spell (info : WorldInfo) (l r : SpellSelector) (t : Target) :
    SpellSelector.select info (.Bind l r) t
      = (SpellSelector.select_spell info l (SpellTarget.new t)).flatMap fun nt =>
          SpellSelector.select_spell info r nt := rfl

/-- The bind helper from src/spells.rs: reverse the selector list and
reduce with Bind.  The source calls .unwrap() on the result of reduce, so
an empty list panics there; the panic is embedded as none. -/
def bindList (selectors : List SpellSelector) : Option SpellSelector :=
  match selectors.reverse with
  | [] => none
  | x :: xs => some (xs.foldl (fun acc item => .Bind item acc) x)

/-- The effect constructors, from src/spells.rs. -/
inductive SpellEffect where
  | Summon
  | Add (p : Property)
  | Remove (p : Property)
  | Send (p : Property)
  | Receive (p : Property)
deriving DecidableEq, Repr

/-- One candidate application: the selected target and the effect list of
the rule, from src/spells.rs (struct SpellResult). -/
structure SpellResult where
  target : SpellTarget
  effects : List SpellEffect
deriving DecidableEq, Repr

/-- A spell: either a bare effect list or a selector wrapped around an
inner spell, from src/spells.rs. -/
inductive Spell where
  | Effects (effects : List SpellEffect)
  | Select (selector : SpellSelector) (spell : Spell)
deriving DecidableEq, Repr

/-- Spell::cast from src/spells.rs: walk the selector chain, forwarding
each selected SpellTarget into the inner spell. -/
def Spell.cast (info : WorldInfo) : Spell → SpellTarget → List SpellResult
  | .Effects effects, target => [⟨target, effects⟩]
  | .Select selector spell, target =>
      (selector.select_spell info target).flatMap fun t => spell.cast info t

/-- The basic helper from src/spells.rs: an empty selector list yields the
bare Effects spell (bind is never called on it); a nonempty list is folded
by bindList.  bindList returns none exactly on the empty list, so the match
below reproduces the peek().is_some() test of the source. -/
def basic (selectors : List SpellSelector) (effects : List SpellEffect) : Spell :=
  match bindList selectors with
  | some sel => .Select sel (.Effects effects)
  | none => .Effects effects

/-- Rescale every connection of a result list by a factor; this is the
shape of select_spell applied to a carried connection. -/
def scale (c : ℚ) (l : List SpellTarget) : List SpellTarget :=
  l.map fun r => ⟨r.target, c * r.connection⟩

theorem select_spell_eq_scale (info : WorldInfo) (s : SpellSelector) (st : SpellTarget) :
    SpellSelector.select_spell info s st = scale st.connection (SpellSelector.select info s st.target) := by
  rw [SpellSelector.select_spell, scale]

theorem scale_one (l : List SpellTarget) : scale 1 l = l := by
  have h : (fun r : SpellTarget => (⟨r.target, 1 * r.connection⟩ : SpellTarget)) = fun r => r := by
    funext r
    simp
  rw [scale, h]
  exact List.map_id l

theorem scale_scale (c d : ℚ) (l : List SpellTarget) : scale c (scale d l) = scale (c * d) l := by
  simp [scale, List.map_map, Function.comp, mul_assoc]

theorem scale_flatMap (c : ℚ) (l : List SpellTarget) (g : SpellTarget → List SpellTarget) :
    scale c (l.flatMap g) = l.flatMap fun u => scale c (g u) := by
  simp [scale, List.map_flatMap]

theorem flatMap_scale (c : ℚ) (l : List SpellTarget) (g : SpellTarget → List SpellTarget) :
    (scale c l).flatMap g = l.flatMap fun u => g ⟨u.target, c * u.connection⟩ := by
  simp [scale, List.flatMap_map]

/-- Evaluation of a Bind selector as relational composition of the parts:
left results feed right, multiplying connections. -/
theorem select_bind_eq (info : WorldInfo) (l r : SpellSelector) (t : Target) :
    SpellSelector.select info (.Bind l r) t
      = (SpellSelector.select info l t).flatMap fun u =>
          scale u.connection (SpellSelector.select info r u.target) := by
  rw [select_bind_spell, select_spell_eq_scale, SpellTarget.new, scale_one]
  apply List.flatMap_congr
  intro u _
  rw [select_spell_eq_scale]

/-- Every result fired by select carries connection exactly 1. -/
theorem select_connection_one (info : WorldInfo) :
    ∀ (s : SpellSelector) (t : Target), ∀ r ∈ SpellSelector.select info s t, r.connection = 1 := by
  intro s
  induction s with
  | Adjacent =>
      intro t r hr
      rw [SpellSelector.select] at hr
      obtain ⟨a, _, rfl⟩ := List.mem_map.mp hr
      rfl
  | Is p =>
      intro t r hr
      rw [SpellSelector.select] at hr
      split at hr
      · obtain rfl := List.mem_singleton.mp hr
        rfl
      · exact absurd hr (List.not_mem_nil r)
  | Not s _ =>
      intro t r hr
      rw [SpellSelector.select] at hr
      split at hr
      · obtain rfl := List.mem_singleton.mp hr
        rfl
      · exact absurd hr (List.not_mem_nil r)
  | Bind l r ihl ihr =>
      intro t u hu
      rw [select_bind_eq] at hu
      obtain ⟨a, ha, hu⟩ := List.mem_flatMap.mp hu
      rw [ihl t a ha, scale_one] at hu
      exact ihr a.target u hu

/-- A world with an all-air grid, zero dynamic scalars, and one entity
(id 5) whose bounding box covers the cell (0, 0).  Used to instantiate
the conditional theorems below on concrete inputs. -/
def sampleWorld : WorldInfo :=
  ⟨fun _ => Block.new AIR, fun _ _ => 0, [(5, ⟨(0, 0), (1, 1)⟩)], 0⟩

/-- C3: evaluating Not(s) at a source yields the empty result set when the
inner selector s yields at least one result for that source, and yields
exactly the single pair (source, 1.0) when s yields no result; the output
weight is always exactly 1.0 (a presence test, not a weight complement). -/
theorem c3_not_selector_presence_test (info : WorldInfo) (s : SpellSelector) (src : Target) :
    (SpellSelector.select info s src ≠ [] → SpellSelector.select info (.Not s) src = [])
    ∧ (SpellSelector.select info s src = [] →
        SpellSelector.select info (.Not s) src = [⟨src, 1⟩])
    ∧ ∀ r ∈ SpellSelector.select info (.Not s) src, r.connection = 1 := by
  refine ⟨?_, ?_, select_connection_one info (.Not s) src⟩
  · intro h
    have he : (SpellSelector.select info s src).isEmpty = false := by
      simp [List.isEmpty_eq_false, h]
    rw [SpellSelector.select, he]
    rfl
  · intro h
    rw [SpellSelector.select, h]
    rfl

/-- C3 witness: in the sample world the Burning scalar of cell (0, 0) is
zero, so the inner Is selector yields nothing and Not fires the source
with weight exactly 1. -/
theorem c3_not_selector_presence_test_instance :
    SpellSelector.select sampleWorld (.Is (.Dynamic .Burning)) (.Block 0 0) = []
    ∧ SpellSelector.select sampleWorld (.Not (.Is (.Dynamic .Burning))) (.Block 0 0)
        = [⟨.Block 0 0, 1⟩] :=
  ⟨by decide,
   (c3_not_selector_presence_test sampleWorld (.Is (.Dynamic .Burning)) (.Block 0 0)).2.1
     (by decide)⟩

/-- C4 counterexample: the bind helper of src/spells.rs does not collapse
an empty selector list to an Identity selector (this revision has no
Identity constructor at all); it calls .unwrap() on the reduce of an empty
iterator, which panics, embedded here as none. -/
theorem c4_bind_empty_counterexample : bindList ([] : List SpellSelector) = none := rfl

/-- C4 amended: bind folds right-to-left, bind [a, b, c] = Bind(a,
Bind(b, c)), but on an empty list it panics (none) instead of producing an
Identity selector; the empty case is instead handled by the basic helper,
which skips bind and emits the bare Effects spell, and that spell behaves
as the identity relation, firing exactly the incoming spell target. -/
theorem c4_bind_right_assoc_amended (a b c : SpellSelector) (effs : List SpellEffect)
    (info : WorldInfo) (st : SpellTarget) :
    bindList [a, b, c] = some (.Bind a (.Bind b c))
    ∧ bindList ([] : List SpellSelector) = none
    ∧ basic [] effs = .Effects effs
    ∧ Spell.cast info (basic [] effs) st = [⟨st, effs⟩] :=
  ⟨rfl, rfl, rfl, rfl⟩

/-- C5: Bind is associative: against any fixed world, Bind(Bind(A, B), C)
and Bind(A, Bind(B, C)) evaluate to the same result list at every source
(exactly equal here, since the embedding computes with exact rationals;
the f32 original agrees up to floating-point rounding). -/
theorem c5_bind_associativity (info : WorldInfo) (A B C : SpellSelector) (t : Target) :
    SpellSelector.select info (.Bind (.Bind A B) C) t
      = SpellSelector.select info (.Bind A (.Bind B C)) t := by
  simp only [select_bind_eq]
  rw [List.flatMap_assoc]
  apply List.flatMap_congr
  intro ra _
  rw [flatMap_scale, scale_flatMap]
  apply List.flatMap_congr
  intro rb _
  simp [scale_scale]

/-- C9: the adjacency enumeration of a Block(x, y) source yields exactly
the in-bounds cells of its 3x3 neighborhood other than itself (at most 8;
out-of-bounds neighbors are skipped by the bounds test, never an error)
plus the entities whose bounding box intersects the cell of the source,
and it never yields the source block itself. -/
theorem c9_adjacent_enumeration (info : WorldInfo) (x y : Int) (t : Target) :
    (t ∈ Target.for_each_adjacent info (.Block x y) ↔
      (∃ bx b2 : Int, t = .Block bx b2
        ∧ x - 1 ≤ bx ∧ bx ≤ x + 1 ∧ y - 1 ≤ b2 ∧ b2 ≤ y + 1
        ∧ ¬(bx = x ∧ b2 = y)
        ∧ 0 ≤ bx ∧ bx < GRID_SIZE ∧ 0 ≤ b2 ∧ b2 < GRID_SIZE)
      ∨ (∃ e c, (e, c) ∈ info.entity_colliders
          ∧ c.intersects (AABBCollider.from_block x y) = true ∧ t = .Entity e))
    ∧ (t ∈ Target.for_each_adjacent info (.Block x y) → t ≠ .Block x y) := by
  have hiff : t ∈ Target.for_each_adjacent info (.Block x y) ↔
      (∃ bx b2 : Int, t = .Block bx b2
        ∧ x - 1 ≤ bx ∧ bx ≤ x + 1 ∧ y - 1 ≤ b2 ∧ b2 ≤ y + 1
        ∧ ¬(bx = x ∧ b2 = y)
        ∧ 0 ≤ bx ∧ bx < GRID_SIZE ∧ 0 ≤ b2 ∧ b2 < GRID_SIZE)
      ∨ (∃ e c, (e, c) ∈ info.entity_colliders
          ∧ c.intersects (AABBCollider.from_block x y) = true ∧ t = .Entity e) := by
    rw [Target.for_each_adjacent]
    simp only [List.mem_append, List.mem_flatMap, List.mem_filterMap, List.mem_cons,
      List.not_mem_nil, or_false, Option.ite_none_right_eq_some, Option.some.injEq]
    constructor
    · rintro (⟨x2, hx2, y2, hy2, ⟨hne, hb⟩, rfl⟩ | ⟨ec, hec, hint, rfl⟩)
      · exact Or.inl ⟨x + x2, y + y2, rfl, by omega, by omega, by omega, by omega,
          by rcases hx2 with rfl | rfl | rfl <;> rcases hy2 with rfl | rfl | rfl <;> omega,
          hb.1, hb.2.1, hb.2.2.1, hb.2.2.2⟩
      · exact Or.inr ⟨ec.1, ec.2, hec, hint, rfl⟩
    · rintro (⟨bx, b2, rfl, h1, h2, h3, h4, hne, h5, h6, h7, h8⟩ | ⟨e, c, hec, hint, rfl⟩)
      · refine Or.inl ⟨bx - x, by omega, b2 - y, by omega,
          ⟨⟨by omega, by omega, by omega, by omega, by omega⟩, ?_⟩⟩
        congr 1 <;> omega
      · exact Or.inr ⟨(e, c), hec, hint, rfl⟩
  refine ⟨hiff, ?_⟩
  intro hmem heq
  rcases hiff.mp hmem with ⟨bx, b2, rfl, _, _, _, _, hne, _⟩ | ⟨e, c, _, _, heq2⟩
  · rw [Target.Block.injEq] at heq
    exact hne ⟨heq.1, heq.2⟩
  · rw [heq2] at heq
    exact Target.noConfusion heq

/-- C9 witness: in the sample world, entity 5 overlaps cell (0, 0), so the
enumeration at Block(0, 0) contains Entity 5, which is not the source. -/
theorem c9_adjacent_enumeration_instance :
    Target.Entity 5 ∈ Target.for_each_adjacent sampleWorld (.Block 0 0)
    ∧ Target.Entity 5 ≠ .Block 0 0 := by
  have hmem : Target.Entity 5 ∈ Target.for_each_adjacent sampleWorld (.Block 0 0) := by
    rw [Target.for_each_adjacent]
    simp [sampleWorld, AABBCollider.intersects, AABBCollider.from_block]
  exact ⟨hmem, (c9_adjacent_enumeration sampleWorld 0 0 (.Entity 5)).2 hmem⟩

/-- C10: starting from a connection of exactly 1, every result produced by
select_spell keeps connection exactly 1: all primitive selectors emit
weight 1 and Bind only multiplies such weights, so no fractional weight
can arise in this revision. -/
theorem c10_connection_always_one (info : WorldInfo) (s : SpellSelector) (st : SpellTarget)
    (h : st.connection = 1) :
    ∀ r ∈ SpellSelector.select_spell info s st, r.connection = 1 := by
  intro r hr
  rw [select_spell_eq_scale, h, scale_one] at hr
  exact select_connection_one info s st.target r hr

/-- C10 witness: instantiated at the sample world with the Is(Material Air)
selector and the fresh spell target of cell (0, 0). -/
theorem c10_connection_always_one_instance :
    (SpellTarget.new (Target.Block 0 0)).connection = 1
    ∧ ∀ r ∈ SpellSelector.select_spell sampleWorld (.Is (.Material AIR))
          (SpellTarget.new (.Block 0 0)), r.connection = 1 :=
  ⟨rfl, c10_connection_always_one sampleWorld (.Is (.Material AIR)) (SpellTarget.new (.Block 0 0)) rfl⟩

/-- Object from src/storage.rs: the key type of every stored relation. -/
inductive Object where
  | Block (x y : Int)
  | Rigidbody (id : Nat)
  | Zone
deriving DecidableEq, Repr

/-- Digraph from src/storage.rs: a sparse weighted directed graph, a
nested HashMap from source to target to weight in the source, embedded as
a flat association list keyed by (source, target).  HashMap iteration
order is unspecified in the source, so the list order stands for an
arbitrary but fixed enumeration order. -/
structure Digraph (E : Type) where
  entries : List ((Object × Object) × E)
deriving DecidableEq, Repr

/-- Digraph::get_option from src/storage.rs: lookup of one edge weight. -/
def Digraph.get_option {E : Type} (d : Digraph E) (source target : Object) : Option E :=
  (d.entries.find? fun e => decide (e.1 = (source, target))).map fun e => e.2

/-- Digraph::set_option from src/storage.rs: Some inserts or replaces the
edge, None removes it. -/
def Digraph.set_option {E : Type} (d : Digraph E) (source target : Object) (value : Option E) :
    Digraph E :=
  match value with
  | some v =>
      ⟨((source, target), v) :: d.entries.filter fun e => decide (¬e.1 = (source, target))⟩
  | none => ⟨d.entries.filter fun e => decide (¬e.1 = (source, target))⟩

/-- SparseMatrix::get for Digraph f32 from src/storage.rs:
get_option().cloned().unwrap_or_default(), and f32 default is 0.0. -/
def Digraph.get (d : Digraph ℚ) (source target : Object) : ℚ :=
  (d.get_option source target).getD 0

/-- SparseMatrix::row for Digraph f32 from src/storage.rs: the entries of
one source row as (target, weight) pairs. -/
def Digraph.row (d : Digraph ℚ) (source : Object) : List (Object × ℚ) :=
  d.entries.filterMap fun e => if e.1.1 = source then some (e.1.2, e.2) else none

/-- Key-uniqueness invariant of the HashMap representation. -/
def Digraph.Nodup {E : Type} (d : Digraph E) : Prop :=
  (d.entries.map fun e => e.1).Nodup

/-- TrackingDigraph from src/storage.rs: the live relation plus the graph
of values as of the last clear (named previous in the source). -/
structure TrackingDigraph (E : Type) where
  current : Digraph E
  previous : Digraph E
deriving DecidableEq, Repr

/-- TrackingDigraph::clear_previous from src/storage.rs: empty every
inner map of previous (every lookup becomes None). -/
def TrackingDigraph.clear_previous {E : Type} (td : TrackingDigraph E) : TrackingDigraph E :=
  { td with previous := ⟨[]⟩ }

/-- TrackingDigraph::update from src/storage.rs: read the current value
(default when absent), record it into previous if previous has no entry
for the pair yet, then store f(current value) into current, removing the
entry instead when the new value equals the default. -/
def TrackingDigraph.update {E : Type} [Inhabited E] [DecidableEq E] (td : TrackingDigraph E)
    (source target : Object) (f : E → E) : TrackingDigraph E :=
  let current_val := (td.current.get_option source target).getD default
  let td1 :=
    if (td.previous.get_option source target).isNone then
      { td with previous := td.previous.set_option source target (some current_val) }
    else td
  let new_val := f current_val
  { td1 with
    current := td1.current.set_option source target
      (if new_val = default then none else some new_val) }

/-- An update sequence applied in order; each element carries the edge pair
and the update function handed to TrackingDigraph::update. -/
def applyUpdates {E : Type} [Inhabited E] [DecidableEq E] (td : TrackingDigraph E)
    (us : List (Object × Object × (E → E))) : TrackingDigraph E :=
  us.foldl (fun td u => td.update u.1 u.2.1 u.2.2) td

/-- Entries of the diff composite from src/sparse_matrices.rs:
diff = mul(-1, add(previous, mul(-1, current))).  AddSparseMatrices
enumerates the entries of its left operand (previous here) and adds the
pointwise get of the right, so the diff entries run over the keys touched
since the last clear. -/
def TrackingDigraph.diffEntries (td : TrackingDigraph ℚ) : List ((Object × Object) × ℚ) :=
  td.previous.entries.map fun e =>
    (e.1, (-1 : ℚ) * (e.2 + (-1 : ℚ) * td.current.get e.1.1 e.1.2))

/-- Row of the diff composite from src/sparse_matrices.rs, likewise driven
by the row of previous. -/
def TrackingDigraph.diffRow (td : TrackingDigraph ℚ) (source : Object) : List (Object × ℚ) :=
  (td.previous.row source).map fun tv =>
    (tv.1, (-1 : ℚ) * (tv.2 + (-1 : ℚ) * td.current.get source tv.1))

/-- MulSparseMatrices::entries from src/sparse_matrices.rs: for every left
entry (source, middle, v1) and every (target, v2) in the right row of
middle, emit (source, target, v1 * v2).  Duplicate (source, target) keys
are emitted once per middle; the caller folds them additively. -/
def matMulEntries (leftEntries : List ((Object × Object) × ℚ))
    (rightRow : Object → List (Object × ℚ)) : List ((Object × Object) × ℚ) :=
  leftEntries.flatMap fun e => (rightRow e.1.2).map fun tv => ((e.1.1, tv.1), e.2 * tv.2)

/-- ReactiveStorage::recompute_cache from src/storage.rs, Bind arm: fold
the three partial products into the cached relation of the bind, in source
order: plus diff(left) * current(right), plus current(left) * diff(right),
minus diff(left) * diff(right).  The Is and Adjacent arms of the source do
nothing and the remaining arms are todo.  left and right are the storages
of the two parent selectors fetched from the StorageManager. -/
def recompute_cache (self left right : TrackingDigraph ℚ) : TrackingDigraph ℚ :=
  let s1 := (matMulEntries left.diffEntries right.current.row).foldl
    (fun td e => td.update e.1.1 e.1.2 fun x => x + e.2) self
  let s2 := (matMulEntries left.current.entries right.diffRow).foldl
    (fun td e => td.update e.1.1 e.1.2 fun x => x + e.2) s1
  (matMulEntries left.diffEntries right.diffRow).foldl
    (fun td e => td.update e.1.1 e.1.2 fun x => x - e.2) s2

theorem find?_filter_key {E : Type} (l : List ((Object × Object) × E)) (k k' : Object × Object)
    (h : ¬k' = k) :
    ((l.filter fun e => decide (¬e.1 = k)).find? fun e => decide (e.1 = k'))
      = l.find? fun e => decide (e.1 = k') := by
  induction l with
  | nil => rfl
  | cons e l ih =>
      by_cases hek : e.1 = k
      · rw [List.filter_cons_of_neg (by simpa using hek),
          List.find?_cons_of_neg _ (by simp only [hek, decide_eq_true_eq]; exact fun hh => h hh.symm), ih]
      · rw [List.filter_cons_of_pos (by simpa using hek)]
        by_cases hek' : e.1 = k'
        · rw [List.find?_cons_of_pos _ (by simpa using hek'), List.find?_cons_of_pos _ (by simpa using hek')]
        · rw [List.find?_cons_of_neg _ (by simpa using hek'), List.find?_cons_of_neg _ (by simpa using hek'), ih]

theorem find?_filter_self {E : Type} (l : List ((Object × Object) × E)) (k : Object × Object) :
    ((l.filter fun e => decide (¬e.1 = k)).find? fun e => decide (e.1 = k)) = none := by
  rw [List.find?_eq_none]
  intro e he
  have := (List.mem_filter.mp he).2
  simpa using this

/-- Semantics of set_option: the written pair reads back as the written
option, every other pair is untouched. -/
theorem get_option_set_option {E : Type} (d : Digraph E) (s t s' t' : Object) (v? : Option E) :
    (d.set_option s t v?).get_option s' t'
      = if (s', t') = (s, t) then v? else d.get_option s' t' := by
  by_cases hk : (s', t') = (s, t)
  · rw [if_pos hk]
    cases v? with
    | none =>
        rw [Digraph.set_option, Digraph.get_option]
        rw [show (s', t') = (s, t) from hk] at *
        rw [find?_filter_self]
        rfl
    | some v =>
        rw [Digraph.set_option, Digraph.get_option]
        rw [List.find?_cons_of_pos _ (by simpa using hk.symm)]
        rfl
  · rw [if_neg hk]
    cases v? with
    | none =>
        rw [Digraph.set_option, Digraph.get_option, Digraph.get_option, find?_filter_key _ _ _ hk]
    | some v =>
        rw [Digraph.set_option, Digraph.get_option, Digraph.get_option]
        rw [List.find?_cons_of_neg _
          (by simp only [decide_eq_true_eq]; exact fun hc => hk hc.symm)]
        rw [find?_filter_key _ _ _ hk]

/-- The current graph after an update is the current graph with the pair
set to f of the old value, pruned when that value is exactly 0. -/
theorem update_current_eq (td : TrackingDigraph ℚ) (s t : Object) (f : ℚ → ℚ) :
    (td.update s t f).current
      = td.current.set_option s t
          (if f (td.current.get s t) = 0 then none else some (f (td.current.get s t))) := by
  simp only [TrackingDigraph.update, Digraph.get]
  split <;> rfl

/-- The previous graph after an update: the old current value is recorded
at the pair when previous had no entry there yet. -/
theorem update_previous_eq (td : TrackingDigraph ℚ) (s t : Object) (f : ℚ → ℚ) :
    (td.update s t f).previous
      = if (td.previous.get_option s t).isNone then
          td.previous.set_option s t (some (td.current.get s t))
        else td.previous := by
  simp only [TrackingDigraph.update, Digraph.get]
  split <;> rfl

/-- Update semantics on current, read through get: pointwise application
of f at the written pair (the zero-pruning is invisible to get because a
removed entry reads back as the default 0). -/
theorem update_current_get (td : TrackingDigraph ℚ) (s t s' t' : Object) (f : ℚ → ℚ) :
    (td.update s t f).current.get s' t'
      = if (s', t') = (s, t) then f (td.current.get s t) else td.current.get s' t' := by
  rw [update_current_eq, Digraph.get, get_option_set_option]
  by_cases hk : (s', t') = (s, t)
  · rw [if_pos hk, if_pos hk]
    by_cases hz : f (td.current.get s t) = 0
    · rw [if_pos hz, hz]
      rfl
    · rw [if_neg hz]
      rfl
  · rw [if_neg hk, if_neg hk]
    rfl

/-- Update semantics on previous: the old current value is recorded at the
written pair when previous had no entry there; nothing else changes. -/
theorem update_previous_get_option (td : TrackingDigraph ℚ) (s t s' t' : Object) (f : ℚ → ℚ) :
    (td.update s t f).previous.get_option s' t'
      = if (s', t') = (s, t) ∧ td.previous.get_option s t = none
          then some (td.current.get s t)
          else td.previous.get_option s' t' := by
  rw [update_previous_eq]
  by_cases hp : (td.previous.get_option s t).isNone
  · rw [if_pos hp, get_option_set_option]
    have hpn : td.previous.get_option s t = none := Option.isNone_iff_eq_none.mp hp
    by_cases hk : (s', t') = (s, t)
    · rw [if_pos hk, if_pos ⟨hk, hpn⟩]
    · rw [if_neg hk, if_neg (fun h => hk h.1)]
  · have hpn : ¬td.previous.get_option s t = none := by
      simpa [Option.isNone_iff_eq_none] using hp
    rw [if_neg hp, if_neg (fun h => hpn h.2)]

/-- Total weight an entry list carries at one key pair; a fold of updates
over the list adds exactly this amount at the pair. -/
def sumAt (l : List ((Object × Object) × ℚ)) (k : Object × Object) : ℚ :=
  (l.map fun e => if e.1 = k then e.2 else 0).sum

/-- Total weight a row list carries at one target. -/
def rowSumAt (l : List (Object × ℚ)) (t : Object) : ℚ :=
  (l.map fun tv => if tv.1 = t then tv.2 else 0).sum

theorem sumAt_nil (k : Object × Object) : sumAt [] k = 0 := rfl

theorem sumAt_cons (e : (Object × Object) × ℚ) (l : List ((Object × Object) × ℚ))
    (k : Object × Object) : sumAt (e :: l) k = (if e.1 = k then e.2 else 0) + sumAt l k := rfl

theorem sumAt_append (l1 l2 : List ((Object × Object) × ℚ)) (k : Object × Object) :
    sumAt (l1 ++ l2) k = sumAt l1 k + sumAt l2 k := by
  rw [sumAt, List.map_append, List.sum_append]
  rfl

/-- Folding additive updates over an entry list adds the sum of the list
at each pair to the current relation. -/
theorem foldl_update_add (l : List ((Object × Object) × ℚ)) (td : TrackingDigraph ℚ)
    (s' t' : Object) :
    ((l.foldl (fun td e => td.update e.1.1 e.1.2 fun x => x + e.2) td).current.get s' t')
      = td.current.get s' t' + sumAt l (s', t') := by
  induction l generalizing td with
  | nil => rw [List.foldl_nil, sumAt_nil, add_zero]
  | cons e l ih =>
      rw [List.foldl_cons, ih, update_current_get, sumAt_cons]
      by_cases hk : (s', t') = (e.1.1, e.1.2)
      · have h1 : s' = e.1.1 := congrArg Prod.fst hk
        have h2 : t' = e.1.2 := congrArg Prod.snd hk
        subst h1
        subst h2
        rw [if_pos rfl, if_pos (show e.1 = (e.1.1, e.1.2) from rfl)]
        ring
      · rw [if_neg hk, if_neg (fun h => hk (by rw [← h]))]
        ring

/-- Folding subtractive updates over an entry list subtracts the sum of
the list at each pair from the current relation. -/
theorem foldl_update_sub (l : List ((Object × Object) × ℚ)) (td : TrackingDigraph ℚ)
    (s' t' : Object) :
    ((l.foldl (fun td e => td.update e.1.1 e.1.2 fun x => x - e.2) td).current.get s' t')
      = td.current.get s' t' - sumAt l (s', t') := by
  induction l generalizing td with
  | nil => rw [List.foldl_nil, sumAt_nil, sub_zero]
  | cons e l ih =>
      rw [List.foldl_cons, ih, update_current_get, sumAt_cons]
      by_cases hk : (s', t') = (e.1.1, e.1.2)
      · have h1 : s' = e.1.1 := congrArg Prod.fst hk
        have h2 : t' = e.1.2 := congrArg Prod.snd hk
        subst h1
        subst h2
        rw [if_pos rfl, if_pos (show e.1 = (e.1.1, e.1.2) from rfl)]
        ring
      · rw [if_neg hk, if_neg (fun h => hk (by rw [← h]))]
        ring

theorem rowSumAt_cons (tv : Object × ℚ) (l : List (Object × ℚ)) (t : Object) :
    rowSumAt (tv :: l) t = (if tv.1 = t then tv.2 else 0) + rowSumAt l t := rfl

theorem rowSumAt_map_mul (s0 : Object) (c : ℚ) (row : List (Object × ℚ)) (s t : Object) :
    sumAt (row.map fun tv => ((s0, tv.1), c * tv.2)) (s, t)
      = if s0 = s then c * rowSumAt row t else 0 := by
  induction row with
  | nil =>
      rw [List.map_nil, sumAt_nil]
      simp [rowSumAt]
  | cons tv row ih =>
      rw [List.map_cons, sumAt_cons, ih, rowSumAt_cons]
      by_cases hs : s0 = s
      · subst hs
        rw [if_pos rfl, if_pos rfl]
        by_cases ht : tv.1 = t
        · rw [if_pos (by rw [ht]), if_pos ht]
          ring
        · rw [if_neg (by simpa using ht), if_neg ht]
          ring
      · rw [if_neg hs, if_neg hs,
          if_neg (fun hc : (s0, tv.1) = (s, t) => hs (congrArg Prod.fst hc)), add_zero]

/-- The sum of a relational-product entry list at one pair decomposes over
the left entries, each weighted by the row sum of the right. -/
theorem sumAt_matMul (A : List ((Object × Object) × ℚ)) (rowFn : Object → List (Object × ℚ))
    (s t : Object) :
    sumAt (matMulEntries A rowFn) (s, t)
      = (A.map fun e => if e.1.1 = s then e.2 * rowSumAt (rowFn e.1.2) t else 0).sum := by
  induction A with
  | nil => rfl
  | cons e A ih =>
      rw [matMulEntries, List.flatMap_cons, sumAt_append, ← matMulEntries, ih,
        rowSumAt_map_mul, List.map_cons, List.sum_cons]

theorem get_nil (s m : Object) : (⟨[]⟩ : Digraph ℚ).get s m = 0 := rfl

theorem get_cons (e : (Object × Object) × ℚ) (l : List ((Object × Object) × ℚ))
    (s m : Object) :
    (⟨e :: l⟩ : Digraph ℚ).get s m
      = if e.1 = (s, m) then e.2 else (⟨l⟩ : Digraph ℚ).get s m := by
  rw [Digraph.get, Digraph.get_option]
  by_cases he : e.1 = (s, m)
  · rw [List.find?_cons_of_pos _ (by simpa using he), if_pos he]
    rfl
  · rw [List.find?_cons_of_neg _ (by simpa using he), if_neg he]
    rfl

theorem get_eq_zero_of_not_mem (l : List ((Object × Object) × ℚ)) (s m : Object)
    (h : (s, m) ∉ l.map fun e => e.1) : (⟨l⟩ : Digraph ℚ).get s m = 0 := by
  rw [Digraph.get, Digraph.get_option]
  have hall : ∀ x ∈ l, ¬((fun e : (Object × Object) × ℚ => decide (e.1 = (s, m))) x = true) := by
    intro x hx hc
    exact h (List.mem_map.mpr ⟨x, hx, by simpa using hc⟩)
  rw [List.find?_eq_none.mpr hall]
  rfl

/-- Extending a key-unique entry-list sum to a finite-set sum over any set
of middles covering the keys of the list. -/
theorem entrySum_eq_finsetSum (A : List ((Object × Object) × ℚ)) (g : Object → ℚ)
    (s : Object) (M : Finset Object)
    (hA : (A.map fun e => e.1).Nodup)
    (hM : ∀ m, (s, m) ∈ A.map (fun e => e.1) → m ∈ M) :
    (A.map fun e => if e.1.1 = s then e.2 * g e.1.2 else 0).sum
      = ∑ m in M, (⟨A⟩ : Digraph ℚ).get s m * g m := by
  induction A with
  | nil =>
      rw [List.map_nil, List.sum_nil]
      refine (Finset.sum_eq_zero ?_).symm
      intro m _
      rw [get_nil, zero_mul]
  | cons e A ih =>
      rw [List.map_cons] at hA
      obtain ⟨hnotmem, hA'⟩ := List.nodup_cons.mp hA
      have hM' : ∀ m, (s, m) ∈ A.map (fun e => e.1) → m ∈ M := fun m hm =>
        hM m (by rw [List.map_cons]; exact List.mem_cons_of_mem _ hm)
      rw [List.map_cons, List.sum_cons, ih hA' hM']
      by_cases he : e.1.1 = s
      · have hkey : e.1 = (s, e.1.2) := by rw [← he]
        have hm0 : e.1.2 ∈ M := hM e.1.2 (by rw [List.map_cons, ← hkey]; exact List.mem_cons_self _ _)
        have h1 : (⟨e :: A⟩ : Digraph ℚ).get s e.1.2 = e.2 := by
          rw [get_cons, if_pos hkey]
        have hg0 : (⟨A⟩ : Digraph ℚ).get s e.1.2 = 0 :=
          get_eq_zero_of_not_mem A s e.1.2 (by rw [← hkey]; exact hnotmem)
        have h2 : ∑ m in M.erase e.1.2, (⟨e :: A⟩ : Digraph ℚ).get s m * g m
            = ∑ m in M.erase e.1.2, (⟨A⟩ : Digraph ℚ).get s m * g m := by
          refine Finset.sum_congr rfl fun m hm => ?_
          rw [get_cons, if_neg fun hc =>
            (Finset.ne_of_mem_erase hm) ((congrArg Prod.snd hc).symm.trans rfl)]
        have h3 : ∑ m in M, (⟨A⟩ : Digraph ℚ).get s m * g m
            = ∑ m in M.erase e.1.2, (⟨A⟩ : Digraph ℚ).get s m * g m := by
          rw [← Finset.add_sum_erase M _ hm0, hg0, zero_mul, zero_add]
        rw [if_pos he, h3, ← Finset.add_sum_erase M _ hm0, h1, h2]
      · rw [if_neg he, zero_add]
        refine Finset.sum_congr rfl fun m _ => ?_
        rw [get_cons, if_neg fun hc => he (congrArg Prod.fst hc)]

theorem row_cons (e : (Object × Object) × ℚ) (l : List ((Object × Object) × ℚ)) (m : Object) :
    (⟨e :: l⟩ : Digraph ℚ).row m
      = if e.1.1 = m then (e.1.2, e.2) :: (⟨l⟩ : Digraph ℚ).row m
        else (⟨l⟩ : Digraph ℚ).row m := by
  by_cases he : e.1.1 = m
  · simp [Digraph.row, List.filterMap_cons, he]
  · simp [Digraph.row, List.filterMap_cons, he]

theorem rowSumAt_eq_zero (l : List (Object × ℚ)) (t : Object)
    (h : t ∉ l.map fun tv => tv.1) : rowSumAt l t = 0 := by
  induction l with
  | nil => rfl
  | cons tv l ih =>
      rw [rowSumAt_cons, if_neg fun hc => h (by rw [List.map_cons, hc]; exact List.mem_cons_self _ _),
        ih fun hc => h (by rw [List.map_cons]; exact List.mem_cons_of_mem _ hc), add_zero]

/-- Row sums of a key-unique digraph agree with pointwise get. -/
theorem rowSumAt_row (l : List ((Object × Object) × ℚ))
    (hl : (l.map fun e => e.1).Nodup) (m t : Object) :
    rowSumAt ((⟨l⟩ : Digraph ℚ).row m) t = (⟨l⟩ : Digraph ℚ).get m t := by
  induction l with
  | nil => rfl
  | cons e l ih =>
      rw [List.map_cons] at hl
      obtain ⟨hnotmem, hl'⟩ := List.nodup_cons.mp hl
      rw [row_cons, get_cons]
      by_cases he : e.1.1 = m
      · rw [if_pos he]
        by_cases ht : e.1.2 = t
        · have hkey : e.1 = (m, t) := by rw [← he, ← ht]
          rw [if_pos hkey, rowSumAt_cons, if_pos ht, ih hl',
            get_eq_zero_of_not_mem l m t (by rw [← hkey]; exact hnotmem), add_zero]
        · rw [if_neg fun hc => ht (congrArg Prod.snd hc), rowSumAt_cons, if_neg ht, zero_add,
            ih hl']
      · rw [if_neg he, if_neg fun hc => he (congrArg Prod.fst hc), ih hl']

/-- The value an edge had at the last clear, reconstructed from a tracking
digraph: the recorded previous value when the pair was touched, the live
current value otherwise. -/
def TrackingDigraph.oldVal (td : TrackingDigraph ℚ) (s t : Object) : ℚ :=
  match td.previous.get_option s t with
  | some v => v
  | none => td.current.get s t

theorem get_option_map_value (l : List ((Object × Object) × ℚ))
    (G : (Object × Object) × ℚ → ℚ) (s m : Object) :
    (⟨l.map fun e => (e.1, G e)⟩ : Digraph ℚ).get_option s m
      = (l.find? fun e => decide (e.1 = (s, m))).map G := by
  rw [Digraph.get_option, List.find?_map, Option.map_map]
  rfl

/-- The diff entry list reads back as current minus old at every pair. -/
theorem diffEntries_get (td : TrackingDigraph ℚ) (s m : Object) :
    (⟨td.diffEntries⟩ : Digraph ℚ).get s m = td.current.get s m - td.oldVal s m := by
  rw [TrackingDigraph.diffEntries, Digraph.get, get_option_map_value, TrackingDigraph.oldVal]
  have hopt : td.previous.get_option s m
      = (td.previous.entries.find? fun e => decide (e.1 = (s, m))).map fun e => e.2 := rfl
  cases hf : td.previous.entries.find? fun e => decide (e.1 = (s, m)) with
  | none =>
      rw [hopt, hf]
      exact (sub_self _).symm
  | some e =>
      have he1 : e.1 = (s, m) := by simpa using List.find?_some hf
      rw [hopt, hf]
      show (-1 : ℚ) * (e.2 + -1 * td.current.get e.1.1 e.1.2) = td.current.get s m - e.2
      have h11 : e.1.1 = s := congrArg Prod.fst he1
      have h12 : e.1.2 = m := congrArg Prod.snd he1
      rw [h11, h12]
      ring

theorem diffEntries_keys (td : TrackingDigraph ℚ) :
    td.diffEntries.map (fun e => e.1) = td.previous.entries.map fun e => e.1 := by
  rw [TrackingDigraph.diffEntries, List.map_map]
  rfl

theorem mem_row_keys (l : List ((Object × Object) × ℚ)) (m t : Object) :
    t ∈ ((⟨l⟩ : Digraph ℚ).row m).map (fun tv => tv.1)
      ↔ (m, t) ∈ l.map fun e => e.1 := by
  induction l with
  | nil => simp [Digraph.row]
  | cons e l ih =>
      rw [row_cons, List.map_cons]
      by_cases he : e.1.1 = m
      · rw [if_pos he, List.map_cons, List.mem_cons, List.mem_cons, ih]
        constructor
        · rintro (rfl | h)
          · exact Or.inl (by rw [← he])
          · exact Or.inr h
        · rintro (h | h)
          · exact Or.inl (congrArg Prod.snd h)
          · exact Or.inr h
      · rw [if_neg he, ih, List.mem_cons]
        constructor
        · exact Or.inr
        · rintro (h | h)
          · exact absurd (congrArg Prod.fst h).symm he
          · exact h

theorem row_keys_nodup (l : List ((Object × Object) × ℚ))
    (hl : (l.map fun e => e.1).Nodup) (m : Object) :
    (((⟨l⟩ : Digraph ℚ).row m).map fun tv => tv.1).Nodup := by
  induction l with
  | nil => simp [Digraph.row]
  | cons e l ih =>
      rw [List.map_cons] at hl
      obtain ⟨hnotmem, hl'⟩ := List.nodup_cons.mp hl
      rw [row_cons]
      by_cases he : e.1.1 = m
      · rw [if_pos he, List.map_cons]
        refine List.nodup_cons.mpr ⟨?_, ih hl'⟩
        intro hc
        exact hnotmem (by
          have := (mem_row_keys l m e.1.2).mp hc
          rw [← he] at this
          simpa using this)
      · rw [if_neg he]
        exact ih hl'

theorem row_find? (l : List ((Object × Object) × ℚ)) (m t : Object) :
    (((⟨l⟩ : Digraph ℚ).row m).find? fun tv => decide (tv.1 = t))
      = (l.find? fun e => decide (e.1 = (m, t))).map fun e => (e.1.2, e.2) := by
  induction l with
  | nil => rfl
  | cons e l ih =>
      rw [row_cons]
      by_cases he : e.1.1 = m
      · rw [if_pos he]
        by_cases ht : e.1.2 = t
        · have hkey : e.1 = (m, t) := by rw [← he, ← ht]
          rw [List.find?_cons_of_pos _ (by simpa using ht),
            List.find?_cons_of_pos _ (by simpa using hkey)]
          rfl
        · rw [List.find?_cons_of_neg _ (by simpa using ht),
            List.find?_cons_of_neg _
              (by simp only [decide_eq_true_eq]; exact fun hc => ht (congrArg Prod.snd hc)), ih]
      · rw [if_neg he,
          List.find?_cons_of_neg _
            (by simp only [decide_eq_true_eq]; exact fun hc => he (congrArg Prod.fst hc)), ih]

theorem rowSumAt_value_map (row : List (Object × ℚ))
    (hrow : (row.map fun tv => tv.1).Nodup) (G : Object × ℚ → ℚ) (t : Object) :
    rowSumAt (row.map fun tv => (tv.1, G tv)) t
      = ((row.find? fun tv => decide (tv.1 = t)).map G).getD 0 := by
  induction row with
  | nil => rfl
  | cons tv row ih =>
      rw [List.map_cons] at hrow
      obtain ⟨hnotmem, hrow'⟩ := List.nodup_cons.mp hrow
      rw [List.map_cons, rowSumAt_cons]
      by_cases ht : tv.1 = t
      · rw [List.find?_cons_of_pos _ (by simpa using ht), if_pos ht]
        have hz : rowSumAt (row.map fun tv => (tv.1, G tv)) t = 0 := by
          refine rowSumAt_eq_zero _ _ ?_
          rw [List.map_map]
          intro hc
          rw [ht] at hnotmem
          exact hnotmem (by simpa using hc)
        rw [hz, add_zero]
        rfl
      · rw [List.find?_cons_of_neg _ (by simpa using ht), if_neg ht, zero_add, ih hrow']

/-- The diff row at one source sums, at each target, to current minus old. -/
theorem diffRow_rowSumAt (td : TrackingDigraph ℚ) (hprev : td.previous.Nodup)
    (m t : Object) :
    rowSumAt (td.diffRow m) t = td.current.get m t - td.oldVal m t := by
  rw [TrackingDigraph.diffRow,
    rowSumAt_value_map _ (row_keys_nodup _ hprev m) _ t, row_find?, Option.map_map,
    TrackingDigraph.oldVal]
  have hopt : td.previous.get_option m t
      = (td.previous.entries.find? fun e => decide (e.1 = (m, t))).map fun e => e.2 := rfl
  cases hf : td.previous.entries.find? fun e => decide (e.1 = (m, t)) with
  | none =>
      rw [hopt, hf]
      exact (sub_self _).symm
  | some e =>
      have he1 : e.1 = (m, t) := by simpa using List.find?_some hf
      rw [hopt, hf]
      show (-1 : ℚ) * (e.2 + -1 * td.current.get m e.1.2) = td.current.get m t - e.2
      have h12 : e.1.2 = t := congrArg Prod.snd he1
      rw [h12]
      ring

/-- One update never changes the reconstructed old value of any pair: the
first touch of a pair snapshots the pre-update current value into previous
before current changes, and later touches leave previous alone. -/
theorem oldVal_update (td : TrackingDigraph ℚ) (a b : Object) (f : ℚ → ℚ) (s t : Object) :
    (td.update a b f).oldVal s t = td.oldVal s t := by
  rw [TrackingDigraph.oldVal, TrackingDigraph.oldVal, update_previous_get_option]
  by_cases hk : (s, t) = (a, b) ∧ td.previous.get_option a b = none
  · rw [if_pos hk]
    obtain ⟨hk1, hk2⟩ := hk
    have h1 : s = a := congrArg Prod.fst hk1
    have h2 : t = b := congrArg Prod.snd hk1
    subst h1
    subst h2
    rw [hk2]
  · rw [if_neg hk]
    cases hp : td.previous.get_option s t with
    | some v => rfl
    | none =>
        have hne : ¬(s, t) = (a, b) := by
          intro hc
          have h1 : s = a := congrArg Prod.fst hc
          have h2 : t = b := congrArg Prod.snd hc
          subst h1
          subst h2
          exact hk ⟨rfl, hp⟩
        rw [update_current_get, if_neg hne]

/-- The reconstructed old value is invariant under a whole update sequence. -/
theorem oldVal_applyUpdates (td : TrackingDigraph ℚ)
    (us : List (Object × Object × (ℚ → ℚ))) (s t : Object) :
    (applyUpdates td us).oldVal s t = td.oldVal s t := by
  induction us generalizing td with
  | nil => rfl
  | cons u us ih => rw [applyUpdates, List.foldl_cons, ← applyUpdates, ih, oldVal_update]

/-- With a cleared previous graph, the reconstructed old value is exactly
the starting current relation. -/
theorem oldVal_start (C : Digraph ℚ) (s t : Object) :
    (⟨C, ⟨[]⟩⟩ : TrackingDigraph ℚ).oldVal s t = C.get s t := rfl

theorem set_option_nodup {E : Type} (d : Digraph E) (hd : d.Nodup) (s t : Object)
    (v? : Option E) : (d.set_option s t v?).Nodup := by
  have hfilter : ((d.entries.filter fun e => decide (¬e.1 = (s, t))).map fun e => e.1).Nodup := by
    refine List.Sublist.nodup ?_ hd
    exact List.Sublist.map _ (List.filter_sublist _)
  cases v? with
  | none => exact hfilter
  | some v =>
      refine List.nodup_cons.mpr ⟨?_, hfilter⟩
      intro hc
      obtain ⟨e, he, hek⟩ := List.mem_map.mp hc
      have := (List.mem_filter.mp he).2
      rw [hek] at this
      simp at this

theorem update_nodup (td : TrackingDigraph ℚ) (h1 : td.current.Nodup)
    (h2 : td.previous.Nodup) (s t : Object) (f : ℚ → ℚ) :
    (td.update s t f).current.Nodup ∧ (td.update s t f).previous.Nodup := by
  constructor
  · rw [update_current_eq]
    exact set_option_nodup _ h1 _ _ _
  · rw [update_previous_eq]
    by_cases hp : (td.previous.get_option s t).isNone
    · rw [if_pos hp]
      exact set_option_nodup _ h2 _ _ _
    · rw [if_neg hp]
      exact h2

theorem applyUpdates_nodup (td : TrackingDigraph ℚ)
    (us : List (Object × Object × (ℚ → ℚ))) (h1 : td.current.Nodup)
    (h2 : td.previous.Nodup) :
    (applyUpdates td us).current.Nodup ∧ (applyUpdates td us).previous.Nodup := by
  induction us generalizing td with
  | nil => exact ⟨h1, h2⟩
  | cons u us ih =>
      rw [applyUpdates, List.foldl_cons, ← applyUpdates]
      obtain ⟨hc, hp⟩ := update_nodup td h1 h2 u.1 u.2.1 u.2.2
      exact ih _ hc hp

/-- C1: incremental equals batch.  Start a tick with left current L0c,
right current R0c (previous graphs cleared) and a bind cache B0 equal to
the relational product of L0c and R0c over any middle set M covering the
keys left can ever hold.  Apply any sequence of updates to left and any
sequence to right, then one recompute_cache.  The cached current relation
then equals, entry for entry, the relational product of the new left and
right current relations. -/
theorem c1_incremental_matches_product
    (L0c R0c B0 Bprev : Digraph ℚ)
    (usL usR : List (Object × Object × (ℚ → ℚ)))
    (hL0 : L0c.Nodup) (hR0 : R0c.Nodup)
    (M : Finset Object)
    (hML : ∀ s m : Object,
      ((s, m) ∈ (applyUpdates ⟨L0c, ⟨[]⟩⟩ usL).previous.entries.map (fun e => e.1)
        ∨ (s, m) ∈ (applyUpdates ⟨L0c, ⟨[]⟩⟩ usL).current.entries.map fun e => e.1) → m ∈ M)
    (hinit : ∀ s t, B0.get s t = ∑ m in M, L0c.get s m * R0c.get m t)
    (s t : Object) :
    (recompute_cache ⟨B0, Bprev⟩ (applyUpdates ⟨L0c, ⟨[]⟩⟩ usL)
        (applyUpdates ⟨R0c, ⟨[]⟩⟩ usR)).current.get s t
      = ∑ m in M, (applyUpdates ⟨L0c, ⟨[]⟩⟩ usL).current.get s m
          * (applyUpdates ⟨R0c, ⟨[]⟩⟩ usR).current.get m t := by
  set L1 := applyUpdates (⟨L0c, ⟨[]⟩⟩ : TrackingDigraph ℚ) usL with hL1
  set R1 := applyUpdates (⟨R0c, ⟨[]⟩⟩ : TrackingDigraph ℚ) usR with hR1
  obtain ⟨hL1c, hL1p⟩ := applyUpdates_nodup (⟨L0c, ⟨[]⟩⟩ : TrackingDigraph ℚ) usL hL0 List.nodup_nil
  obtain ⟨hR1c, hR1p⟩ := applyUpdates_nodup (⟨R0c, ⟨[]⟩⟩ : TrackingDigraph ℚ) usR hR0 List.nodup_nil
  have holdL : ∀ a b : Object, L1.oldVal a b = L0c.get a b := fun a b => by
    rw [hL1, oldVal_applyUpdates, oldVal_start]
  have holdR : ∀ a b : Object, R1.oldVal a b = R0c.get a b := fun a b => by
    rw [hR1, oldVal_applyUpdates, oldVal_start]
  simp only [recompute_cache]
  rw [foldl_update_sub, foldl_update_add, foldl_update_add]
  rw [sumAt_matMul, sumAt_matMul, sumAt_matMul]
  have cover_prev : ∀ m, (s, m) ∈ L1.diffEntries.map (fun e => e.1) → m ∈ M := by
    intro m hm
    rw [diffEntries_keys] at hm
    exact hML s m (Or.inl hm)
  have cover_cur : ∀ m, (s, m) ∈ L1.current.entries.map (fun e => e.1) → m ∈ M :=
    fun m hm => hML s m (Or.inr hm)
  have hdiffnodup : (L1.diffEntries.map fun e => e.1).Nodup := by
    rw [diffEntries_keys]
    exact hL1p
  rw [entrySum_eq_finsetSum L1.diffEntries (fun m => rowSumAt (R1.current.row m) t) s M
      hdiffnodup cover_prev,
    entrySum_eq_finsetSum L1.current.entries (fun m => rowSumAt (R1.diffRow m) t) s M
      hL1c cover_cur,
    entrySum_eq_finsetSum L1.diffEntries (fun m => rowSumAt (R1.diffRow m) t) s M
      hdiffnodup cover_prev]
  have hS1 : ∑ m in M, (⟨L1.diffEntries⟩ : Digraph ℚ).get s m * rowSumAt (R1.current.row m) t
      = ∑ m in M, (L1.current.get s m - L0c.get s m) * R1.current.get m t := by
    refine Finset.sum_congr rfl fun m _ => ?_
    rw [diffEntries_get, holdL]
    congr 1
    exact rowSumAt_row R1.current.entries hR1c m t
  have hS2 : ∑ m in M, (⟨L1.current.entries⟩ : Digraph ℚ).get s m * rowSumAt (R1.diffRow m) t
      = ∑ m in M, L1.current.get s m * (R1.current.get m t - R0c.get m t) := by
    refine Finset.sum_congr rfl fun m _ => ?_
    rw [diffRow_rowSumAt R1 hR1p, holdR]
  have hS3 : ∑ m in M, (⟨L1.diffEntries⟩ : Digraph ℚ).get s m * rowSumAt (R1.diffRow m) t
      = ∑ m in M, (L1.current.get s m - L0c.get s m) * (R1.current.get m t - R0c.get m t) := by
    refine Finset.sum_congr rfl fun m _ => ?_
    rw [diffEntries_get, holdL, diffRow_rowSumAt R1 hR1p, holdR]
  rw [hS1, hS2, hS3]
  have hB : (⟨B0, Bprev⟩ : TrackingDigraph ℚ).current.get s t = B0.get s t := rfl
  rw [hB, hinit]
  rw [← Finset.sum_add_distrib, ← Finset.sum_add_distrib, ← Finset.sum_sub_distrib]
  refine Finset.sum_congr rfl fun m _ => ?_
  ring

/-- Left operand of the C1 witness: an empty relation. -/
def c1L0 : Digraph ℚ := ⟨[]⟩

/-- Right operand of the C1 witness: one edge of weight 1. -/
def c1R0 : Digraph ℚ := ⟨[((Object.Block 1 0, Object.Block 2 0), 1)]⟩

/-- Update sequence of the C1 witness: write weight 1 to one left edge. -/
def c1us : List (Object × Object × (ℚ → ℚ)) := [(Object.Block 0 0, Object.Block 1 0, fun _ => 1)]

/-- C1 witness: a concrete tick in which the left relation gains one edge;
the recomputed bind cache equals the product of the new relations. -/
theorem c1_incremental_matches_product_instance :
    (recompute_cache ⟨⟨[]⟩, ⟨[]⟩⟩ (applyUpdates ⟨c1L0, ⟨[]⟩⟩ c1us)
        (applyUpdates ⟨c1R0, ⟨[]⟩⟩ [])).current.get (.Block 0 0) (.Block 2 0)
      = ∑ m in {Object.Block 1 0}, (applyUpdates ⟨c1L0, ⟨[]⟩⟩ c1us).current.get (.Block 0 0) m
          * (applyUpdates ⟨c1R0, ⟨[]⟩⟩ []).current.get m (.Block 2 0) := by
  refine c1_incremental_matches_product c1L0 c1R0 ⟨[]⟩ ⟨[]⟩ c1us [] List.nodup_nil
    (by simp [Digraph.Nodup, c1R0]) {Object.Block 1 0} ?_ ?_ (.Block 0 0) (.Block 2 0)
  · intro s m h
    have hprevkeys : (applyUpdates (⟨c1L0, ⟨[]⟩⟩ : TrackingDigraph ℚ) c1us).previous.entries.map
        (fun e => e.1) = [(Object.Block 0 0, Object.Block 1 0)] := rfl
    have hcurkeys : (applyUpdates (⟨c1L0, ⟨[]⟩⟩ : TrackingDigraph ℚ) c1us).current.entries.map
        (fun e => e.1) = [(Object.Block 0 0, Object.Block 1 0)] := rfl
    rw [Finset.mem_singleton]
    rcases h with h | h
    · rw [hprevkeys] at h
      exact congrArg Prod.snd (List.mem_singleton.mp h)
    · rw [hcurkeys] at h
      exact congrArg Prod.snd (List.mem_singleton.mp h)
  · intro s t
    rw [Finset.sum_singleton]
    show (0:ℚ) = 0 * c1R0.get (Object.Block 1 0) t
    rw [zero_mul]

/-- C6 counterexample: updating a fresh pair of an empty tracking digraph
stores the old value, which is exactly the default 0, into the previous
graph as an explicit entry: some 0, not absence. -/
theorem c6_previous_zero_counterexample :
    ((⟨⟨[]⟩, ⟨[]⟩⟩ : TrackingDigraph ℚ).update .Zone .Zone
        (fun x => x + 1)).previous.get_option .Zone .Zone = some 0 := rfl

/-- Generic form of update_current_eq for any defaulted value type. -/
theorem update_current_eq_generic {E : Type} [Inhabited E] [DecidableEq E]
    (td : TrackingDigraph E) (s t : Object) (f : E → E) :
    (td.update s t f).current
      = td.current.set_option s t
          (if f ((td.current.get_option s t).getD default) = default then none
           else some (f ((td.current.get_option s t).getD default))) := by
  simp only [TrackingDigraph.update]
  split <;> rfl

/-- A single update never leaves a default-valued entry in current. -/
theorem update_no_default {E : Type} [Inhabited E] [DecidableEq E]
    (td : TrackingDigraph E) (s t : Object) (f : E → E)
    (h : ∀ e ∈ td.current.entries, ¬e.2 = default) :
    ∀ e ∈ (td.update s t f).current.entries, ¬e.2 = default := by
  intro e he
  rw [update_current_eq_generic] at he
  by_cases hz : f ((td.current.get_option s t).getD default) = default
  · rw [if_pos hz] at he
    rw [Digraph.set_option] at he
    exact h e (List.mem_filter.mp he).1
  · rw [if_neg hz] at he
    rw [Digraph.set_option] at he
    rcases List.mem_cons.mp he with rfl | he2
    · exact hz
    · exact h e (List.mem_filter.mp he2).1

/-- C6 amended: the zero-omission invariant holds for the current graph of
every TrackingDigraph: a value equal to the default (0 for weights) is
pruned rather than stored, across any sequence of updates.  The previous
graph deliberately does not satisfy this: it records the old value even
when that value is exactly 0 (see the counterexample). -/
theorem c6_current_no_zero_amended {E : Type} [Inhabited E] [DecidableEq E]
    (td : TrackingDigraph E) (us : List (Object × Object × (E → E)))
    (h : ∀ e ∈ td.current.entries, ¬e.2 = default) :
    ∀ e ∈ (applyUpdates td us).current.entries, ¬e.2 = default := by
  induction us generalizing td with
  | nil => exact h
  | cons u us ih =>
      rw [applyUpdates, List.foldl_cons, ← applyUpdates]
      exact ih _ (update_no_default td u.1 u.2.1 u.2.2 h)

/-- C6 witness: a concrete update writing 1 to an empty digraph stores the
entry with value 1, and that stored value is not the default 0. -/
theorem c6_current_no_zero_amended_instance :
    ((Object.Zone, Object.Zone), (1:ℚ)) ∈ (applyUpdates (⟨⟨[]⟩, ⟨[]⟩⟩ : TrackingDigraph ℚ)
        [(Object.Zone, Object.Zone, fun x => x + 1)]).current.entries
    ∧ ¬((((Object.Zone, Object.Zone), (1:ℚ)) : (Object × Object) × ℚ).2 = default) := by
  have hmem : ((Object.Zone, Object.Zone), (1:ℚ))
      ∈ (applyUpdates (⟨⟨[]⟩, ⟨[]⟩⟩ : TrackingDigraph ℚ)
        [(Object.Zone, Object.Zone, fun x => x + 1)]).current.entries := by
    norm_num [applyUpdates, TrackingDigraph.update, Digraph.set_option, Digraph.get_option,
      List.find?, List.filter, show (default : ℚ) = 0 from rfl]
  exact ⟨hmem,
    c6_current_no_zero_amended (⟨⟨[]⟩, ⟨[]⟩⟩ : TrackingDigraph ℚ)
      [(Object.Zone, Object.Zone, fun x => x + 1)]
      (fun e he => absurd he (List.not_mem_nil e)) _ hmem⟩

/-- Parent storages used to refute the (0, 1] weight bound: left gained
two edges of weight 1 out of one source this tick (previous recorded the
old value 0 for both), right has two unchanged edges of weight 1 into one
target. -/
def c7Left : TrackingDigraph ℚ :=
  ⟨⟨[((Object.Block 0 0, Object.Block 1 0), 1), ((Object.Block 0 0, Object.Block 1 1), 1)]⟩,
   ⟨[((Object.Block 0 0, Object.Block 1 0), 0), ((Object.Block 0 0, Object.Block 1 1), 0)]⟩⟩

/-- Right parent of the C7 counterexample; see c7Left. -/
def c7Right : TrackingDigraph ℚ :=
  ⟨⟨[((Object.Block 1 0, Object.Block 2 0), 1), ((Object.Block 1 1, Object.Block 2 0), 1)]⟩,
   ⟨[]⟩⟩

/-- C7 counterexample: one recompute_cache starting from a consistent
empty cache stores the weight 2 (the relational product sums over the two
middles), and 2 is outside (0, 1]; no clamping takes place. -/
theorem c7_weight_counterexample :
    (recompute_cache ⟨⟨[]⟩, ⟨[]⟩⟩ c7Left c7Right).current.get (.Block 0 0) (.Block 2 0) = 2
    ∧ ¬((2:ℚ) ≤ 1) := by
  constructor
  · simp only [recompute_cache]
    rw [foldl_update_sub, foldl_update_add, foldl_update_add]
    norm_num [sumAt, matMulEntries, TrackingDigraph.diffEntries, TrackingDigraph.diffRow,
      Digraph.row, Digraph.get, Digraph.get_option, c7Left, c7Right, List.find?, List.filterMap]
  · norm_num

theorem foldl_update_no_zero (G : (Object × Object) × ℚ → ℚ → ℚ)
    (l : List ((Object × Object) × ℚ)) :
    ∀ td : TrackingDigraph ℚ, (∀ e ∈ td.current.entries, ¬e.2 = 0) →
      ∀ e ∈ (l.foldl (fun td e => td.update e.1.1 e.1.2 (G e)) td).current.entries,
        ¬e.2 = 0 := by
  induction l with
  | nil => exact fun td h => h
  | cons x l ih =>
      intro td h
      rw [List.foldl_cons]
      exact ih _ (update_no_default td x.1.1 x.1.2 (G x) h)

/-- C7 amended: recompute_cache performs no clamping at all: the stored
weight at every pair is the raw algebraic fold of the old cached value
plus the two added partial products minus the subtracted one, and that
value can exceed 1 (see the counterexample).  What does hold is the
omission invariant: a weight of exactly 0 is never stored in the current
graph, since update prunes default-valued results. -/
theorem c7_weights_amended (self left right : TrackingDigraph ℚ) (s t : Object)
    (h : ∀ e ∈ self.current.entries, ¬e.2 = 0) :
    ((recompute_cache self left right).current.get s t
      = self.current.get s t
        + sumAt (matMulEntries left.diffEntries right.current.row) (s, t)
        + sumAt (matMulEntries left.current.entries right.diffRow) (s, t)
        - sumAt (matMulEntries left.diffEntries right.diffRow) (s, t))
    ∧ ∀ e ∈ (recompute_cache self left right).current.entries, ¬e.2 = 0 := by
  constructor
  · simp only [recompute_cache]
    rw [foldl_update_sub, foldl_update_add, foldl_update_add]
  · simp only [recompute_cache]
    exact foldl_update_no_zero (fun e x => x - e.2) _ _
      (foldl_update_no_zero (fun e x => x + e.2) _ _
        (foldl_update_no_zero (fun e x => x + e.2) _ _ h))

/-- C7 witness: the amended characterization instantiated at the concrete
counterexample storages, with the empty (hence zero-free) starting cache. -/
theorem c7_weights_amended_instance :
    ((recompute_cache ⟨⟨[]⟩, ⟨[]⟩⟩ c7Left c7Right).current.get (.Block 0 0) (.Block 2 0)
      = (⟨⟨[]⟩, ⟨[]⟩⟩ : TrackingDigraph ℚ).current.get (.Block 0 0) (.Block 2 0)
        + sumAt (matMulEntries c7Left.diffEntries c7Right.current.row) (.Block 0 0, .Block 2 0)
        + sumAt (matMulEntries c7Left.current.entries c7Right.diffRow) (.Block 0 0, .Block 2 0)
        - sumAt (matMulEntries c7Left.diffEntries c7Right.diffRow) (.Block 0 0, .Block 2 0))
    ∧ ∀ e ∈ (recompute_cache ⟨⟨[]⟩, ⟨[]⟩⟩ c7Left c7Right).current.entries, ¬e.2 = 0 :=
  c7_weights_amended ⟨⟨[]⟩, ⟨[]⟩⟩ c7Left c7Right (.Block 0 0) (.Block 2 0)
    (fun e he => absurd he (List.not_mem_nil e))

/-- SpellRule from src/spells.rs: name, rate, optional mana drain and the
spell; rules are constant configuration data. -/
structure SpellRule where
  name : String
  rate : ℚ
  drain : Option Nat
  spell : Spell

/-- The effect application switch of spell_update in src/rules.rs.  Summon
spawns a fresh entity (modelled from the spec as a counter bump) and makes
it the new chain target; Add/Send of a Material overwrite the block id of
a block target; Add/Send of a Dynamic set the scalar to 1.0; Receive of a
Dynamic sets it to 0.0.  The remaining arms are todo in the source (they
panic if reached) and are embedded as no change; no rule in this revision
reaches them. -/
def applyEffect (info : WorldInfo) (target : Target) : SpellEffect → WorldInfo × Target
  | .Summon =>
      ({ info with next_entity := info.next_entity + 1 }, .Entity info.next_entity)
  | .Add (.Material id) =>
      (match target with
       | .Block x y =>
           match info.get_block x y with
           | some b => (info.set_block x y { b with id := id }, target)
           | none => (info, target)
       | .Entity _ => (info, target))
  | .Send (.Material id) =>
      (match target with
       | .Block x y =>
           match info.get_block x y with
           | some b => (info.set_block x y { b with id := id }, target)
           | none => (info, target)
       | .Entity _ => (info, target))
  | .Add (.Dynamic p) => (info.set target p 1, target)
  | .Send (.Dynamic p) => (info.set target p 1, target)
  | .Receive (.Dynamic p) => (info.set target p 0, target)
  | .Add (.Static _) => (info, target)
  | .Remove _ => (info, target)
  | .Send (.Static _) => (info, target)
  | .Receive (.Material _) => (info, target)
  | .Receive (.Static _) => (info, target)

/-- The inner effect loop of spell_update: apply each effect in order,
threading the world and the (possibly summoned) chain target. -/
def applyEffects (info : WorldInfo) (target : Target) (effects : List SpellEffect) : WorldInfo :=
  (effects.foldl (fun st eff => applyEffect st.1 st.2 eff) (info, target)).1

/-- The candidate loop of spell_update in src/rules.rs: per candidate
result, draw a random value; skip the candidate when the draw exceeds the
rate (the result connection weight is not consulted), otherwise apply the
effects to the candidate target. -/
def spellLoop (rate : ℚ) : WorldInfo → List (SpellResult × ℚ) → WorldInfo
  | info, [] => info
  | info, (r, draw) :: rest =>
      if draw > rate then spellLoop rate info rest
      else spellLoop rate (applyEffects info r.target.target r.effects) rest

/-- The trailing mana drain of spell_update in src/rules.rs. -/
def drainStep (info : WorldInfo) (source : Target) : Option Nat → WorldInfo
  | none => info
  | some mana_id =>
      info.set source (.Mana mana_id)
        (max 0 (info.get source (.Dynamic (.Mana mana_id)) - 1/10))

/-- spell_update from src/rules.rs: cast the spell from the source to
collect candidate results, run the rate-gated effect loop over them with
one fresh draw per candidate, then apply the optional mana drain. -/
def spell_update (info : WorldInfo) (rule : SpellRule) (source : Target)
    (draws : List ℚ) : WorldInfo :=
  let results := rule.spell.cast info (SpellTarget.new source)
  drainStep (spellLoop rule.rate info (results.zip draws)) source rule.drain

/-- A rule used to instantiate the C2 statements: rate one half, one Is
selector, one Send effect, no drain. -/
def c2rule : SpellRule :=
  ⟨"test rule", 1/2, none, basic [.Is (.Material AIR)] [.Send (.Dynamic .Burning)]⟩

/-- C2 counterexample: with rate 1/2 and a single candidate of connection
weight 1, a draw of exactly 1/2 is not below rate times weight, so the
claim says the effects are not applied; spell_update applies them (it
skips only when the draw strictly exceeds the rate, and never reads the
weight): the Burning scalar of the target flips from 0 to 1. -/
theorem c2_rate_gate_counterexample :
    ¬((1:ℚ)/2 < 1/2 * 1)
    ∧ sampleWorld.get (.Block 0 0) (.Dynamic .Burning) = 0
    ∧ (spell_update sampleWorld c2rule (.Block 0 0) [1/2]).get (.Block 0 0)
        (.Dynamic .Burning) = 1 := by
  refine ⟨by norm_num, rfl, ?_⟩
  norm_num [spell_update, c2rule, basic, bindList, Spell.cast, SpellSelector.select_spell,
    SpellSelector.select, WorldInfo.get, sampleWorld, Block.new, AIR, get_id, ALL_BLOCK_DATA,
    spellLoop, applyEffects, applyEffect, WorldInfo.set, drainStep, SpellTarget.new,
    List.zip, List.zipWith]

/-- C2 amended: per candidate, the effects are applied exactly when the
fresh draw is at most the rate (the source skips on draw strictly greater
than rate); the candidate connection weight plays no part in the decision:
replacing the weights of all candidates by anything else, keeping targets
and effects, leaves spell_update unchanged. -/
theorem c2_rate_gate_amended :
    (∀ (rate : ℚ) (info : WorldInfo) (r : SpellResult) (draw : ℚ)
        (rest : List (SpellResult × ℚ)),
      spellLoop rate info ((r, draw) :: rest)
        = if draw ≤ rate then spellLoop rate (applyEffects info r.target.target r.effects) rest
          else spellLoop rate info rest)
    ∧ (∀ (rate : ℚ) (info : WorldInfo) (rs1 rs2 : List SpellResult) (draws : List ℚ),
        rs1.map (fun r => (r.target.target, r.effects))
          = rs2.map (fun r => (r.target.target, r.effects)) →
        spellLoop rate info (rs1.zip draws) = spellLoop rate info (rs2.zip draws)) := by
  constructor
  · intro rate info r draw rest
    rw [spellLoop]
    by_cases h : draw > rate
    · rw [if_pos h, if_neg (by exact not_le.mpr h)]
    · rw [if_neg h, if_pos (not_lt.mp h)]
  · intro rate info rs1 rs2 draws h
    induction rs1 generalizing rs2 draws info with
    | nil =>
        have : rs2 = [] := by
          cases rs2 with
          | nil => rfl
          | cons a l => simp at h
        rw [this]
    | cons r rs1 ih =>
        cases rs2 with
        | nil => simp at h
        | cons r2 rs2 =>
            rw [List.map_cons, List.map_cons] at h
            obtain ⟨hhead, htail⟩ := List.cons_eq_cons.mp h
            cases draws with
            | nil => rfl
            | cons d draws =>
                rw [List.zip_cons_cons, List.zip_cons_cons, spellLoop, spellLoop]
                have ht : r.target.target = r2.target.target := congrArg Prod.fst hhead
                have he : r.effects = r2.effects := congrArg Prod.snd hhead
                by_cases hd : d > rate
                · rw [if_pos hd, if_pos hd]
                  exact ih info rs2 draws htail
                · rw [if_neg hd, if_neg hd, ht, he]
                  exact ih _ rs2 draws htail

/-- C2 witness: two concrete candidate lists differing only in connection
weight (1 versus 5) produce the same world. -/
theorem c2_rate_gate_amended_instance :
    spellLoop 1 sampleWorld
        (([⟨⟨.Block 0 0, 1⟩, [.Send (.Dynamic .Burning)]⟩] : List SpellResult).zip [0])
      = spellLoop 1 sampleWorld
        (([⟨⟨.Block 0 0, 5⟩, [.Send (.Dynamic .Burning)]⟩] : List SpellResult).zip [0]) :=
  c2_rate_gate_amended.2 1 sampleWorld _ _ [0] rfl

/-- The neighbors helper used by mark_unstable (the free-function revision
matching the method in src/cells.rs): cartesian offsets, bounds-filtered,
including the (0, 0) offset. -/
def neighbors (x y : Int) (xs ys : List Int) : List (Int × Int) :=
  xs.flatMap fun xo => ys.filterMap fun yo =>
    if 0 ≤ x + xo ∧ x + xo < GRID_SIZE ∧ 0 ≤ y + yo ∧ y + yo < GRID_SIZE then
      some (x + xo, y + yo)
    else none

/-- mark_unstable from src/rules.rs: clear the POWDER_STABLE flag of every
in-bounds neighbor that is liquid-class and has the given material id. -/
def mark_unstable (info : WorldInfo) (x y : Int) (id : Nat) : WorldInfo :=
  (neighbors x y [-1, 0, 1] [-1, 0, 1]).foldl
    (fun info p =>
      match info.get_block p.1 p.2 with
      | none => info
      | some block3 =>
          if block3.data.physics = .Liquid ∧ block3.id = id then
            info.set_block p.1 p.2 (block3.set .POWDER_STABLE false)
          else info)
    info

/-- The fall loop of gravity_update in src/rules.rs (for i in 0..5 with
early breaks), as fuel-counted recursion; fuel starts at 5 and i at 0.
block is the loop-invariant falling block captured before the loop (its
data, notably density and id, never changes inside the loop); draws i is
the random value of iteration i. -/
def gravityLoop (block : Block) (x down : Int) (draws : Nat → ℚ) :
    Nat → Nat → WorldInfo → Int → WorldInfo
  | 0, _, info, _ => info
  | fuel + 1, i, info, y =>
      match info.get_block x (y + down) with
      | none => info
      | some block2 =>
          let fall_desire : ℚ := down * (block2.data.density - block.data.density)
          if fall_desire ≤ 0 ∨ (i : ℚ) + draws i > 2 * fall_desire then info
          else
            let info2 := (info.set_block x y
                (if block2.data.physics ≠ .None then block2.set .MOVED_THIS_STEP true
                 else block2)).set_block x (y + down) (block.set .MOVED_THIS_STEP true)
            let info4 := mark_unstable (info2.swap_properties (.Block x y) (.Block x (y + down)))
              x y block.id
            gravityLoop block x down draws fuel (i + 1) info4 (y + down)

/-- gravity_update from src/rules.rs.  A non-Block target is todo in the
source; a moved or non-liquid block returns immediately; otherwise the
density sign picks the fall direction and the loop above runs. -/
def gravity_update (info : WorldInfo) (target : Target) (draws : Nat → ℚ) : WorldInfo :=
  match target with
  | .Entity _ => info
  | .Block x y =>
      match info.get_block x y with
      | none => info
      | some block =>
          if block.get .MOVED_THIS_STEP ∨ block.data.physics ≠ .Liquid then info
          else
            gravityLoop block x (if block.data.density ≥ 0 then -1 else 1) draws 5 0 info y

/-- One gravity-only pass: gravity_update over a list of targets with
their per-iteration random draws, in order. -/
def gravityPass (info : WorldInfo) (targets : List (Target × (Nat → ℚ))) : WorldInfo :=
  targets.foldl (fun info td => gravity_update info td.1 td.2) info

/-- The grid domain: all in-bounds cells. -/
def gridCells : Finset (Int × Int) :=
  Finset.Icc 0 (GRID_SIZE - 1) ×ˢ Finset.Icc 0 (GRID_SIZE - 1)

/-- The material histogram: how many grid cells hold material id. -/
def materialCount (info : WorldInfo) (id : Nat) : ℕ :=
  ∑ p in gridCells, if (info.blocks p).id = id then 1 else 0

theorem mem_gridCells (a b : Int) :
    (a, b) ∈ gridCells ↔ 0 ≤ a ∧ a < GRID_SIZE ∧ 0 ≤ b ∧ b < GRID_SIZE := by
  rw [gridCells]
  simp only [Finset.mem_product, Finset.mem_Icc, GRID_SIZE]
  omega

theorem Block.set_id (b : Block) (f : PhysicsFlags) (v : Bool) : (b.set f v).id = b.id := by
  cases f <;> rfl

theorem set_block_blocks (info : WorldInfo) (x y : Int) (b : Block) (p : Int × Int) :
    (info.set_block x y b).blocks p = if p = (x, y) then b else info.blocks p := rfl

theorem get_block_some (info : WorldInfo) (x y : Int) (b : Block)
    (h : info.get_block x y = some b) :
    (0 ≤ x ∧ x < GRID_SIZE ∧ 0 ≤ y ∧ y < GRID_SIZE) ∧ b = info.blocks (x, y) := by
  rw [WorldInfo.get_block] at h
  split at h
  · exact ⟨by assumption, (Option.some.injEq _ _ ▸ h).symm⟩
  · exact absurd h (by simp)

theorem materialCount_congr (info1 info2 : WorldInfo) (id : Nat)
    (h : ∀ p, (info1.blocks p).id = (info2.blocks p).id) :
    materialCount info1 id = materialCount info2 id :=
  Finset.sum_congr rfl fun p _ => by rw [h p]

/-- A sum over a finite set is unchanged when the summand values at two
distinct points are exchanged and all other values kept. -/
theorem sum_pair_swap {α : Type} [DecidableEq α] (s : Finset α) (g f : α → ℕ) (p q : α)
    (hp : p ∈ s) (hq : q ∈ s) (hpq : p ≠ q)
    (h1 : g p = f q) (h2 : g q = f p) (h3 : ∀ x ∈ s, x ≠ p → x ≠ q → g x = f x) :
    ∑ x in s, g x = ∑ x in s, f x := by
  have hq' : q ∈ s.erase p := Finset.mem_erase.mpr ⟨Ne.symm hpq, hq⟩
  rw [← Finset.add_sum_erase s g hp, ← Finset.add_sum_erase _ g hq',
    ← Finset.add_sum_erase s f hp, ← Finset.add_sum_erase _ f hq']
  have htail : ∑ x in (s.erase p).erase q, g x = ∑ x in (s.erase p).erase q, f x := by
    refine Finset.sum_congr rfl fun x hx => ?_
    obtain ⟨hxq, hx1⟩ := Finset.mem_erase.mp hx
    obtain ⟨hxp, hxs⟩ := Finset.mem_erase.mp hx1
    exact h3 x hxs hxp hxq
  rw [htail, h1, h2]
  omega

/-- Writing the two blocks of a swap (each carrying the id previously at
the other cell) preserves the material histogram. -/
theorem materialCount_swap (info : WorldInfo) (x y y2 : Int) (b1 b2 : Block) (id : Nat)
    (hin1 : (x, y) ∈ gridCells) (hin2 : (x, y2) ∈ gridCells) (hne : y ≠ y2)
    (h1 : b1.id = (info.blocks (x, y2)).id) (h2 : b2.id = (info.blocks (x, y)).id) :
    materialCount ((info.set_block x y b1).set_block x y2 b2) id = materialCount info id := by
  refine sum_pair_swap gridCells _ _ (x, y) (x, y2) hin1 hin2
    (fun hc => hne (congrArg Prod.snd hc)) ?_ ?_ ?_
  · have hb : ((info.set_block x y b1).set_block x y2 b2).blocks (x, y) = b1 := by
      rw [set_block_blocks, if_neg (fun hc => hne (congrArg Prod.snd hc)), set_block_blocks,
        if_pos rfl]
    rw [hb, h1]
  · have hb : ((info.set_block x y b1).set_block x y2 b2).blocks (x, y2) = b2 := by
      rw [set_block_blocks, if_pos rfl]
    rw [hb, h2]
  · intro p _ hp hq
    have hb : ((info.set_block x y b1).set_block x y2 b2).blocks p = info.blocks p := by
      rw [set_block_blocks, if_neg hq, set_block_blocks, if_neg hp]
    rw [hb]

/-- mark_unstable only toggles a stability flag: every cell keeps its
material id. -/
theorem mark_unstable_blocks_id (info : WorldInfo) (x y : Int) (id0 : Nat) (p : Int × Int) :
    ((mark_unstable info x y id0).blocks p).id = (info.blocks p).id := by
  rw [mark_unstable]
  generalize neighbors x y [-1, 0, 1] [-1, 0, 1] = l
  induction l generalizing info with
  | nil => rfl
  | cons q l ih =>
      rw [List.foldl_cons]
      refine (ih _).trans ?_
      cases hb : info.get_block q.1 q.2 with
      | none => rfl
      | some b3 =>
          show ((if b3.data.physics = .Liquid ∧ b3.id = id0 then
              info.set_block q.1 q.2 (b3.set .POWDER_STABLE false)
            else info).blocks p).id = (info.blocks p).id
          by_cases hcond : b3.data.physics = .Liquid ∧ b3.id = id0
          · rw [if_pos hcond, set_block_blocks]
            by_cases hpq : p = (q.1, q.2)
            · rw [if_pos hpq, Block.set_id, (get_block_some info q.1 q.2 b3 hb).2, hpq]
            · rw [if_neg hpq]
          · rw [if_neg hcond]

theorem swap_properties_blocks (info : WorldInfo) (a b : Target) :
    (info.swap_properties a b).blocks = info.blocks := rfl

/-- The fall loop conserves the material histogram: each iteration swaps
the contents of two in-bounds cells (ids exchanged exactly) and otherwise
only flips flags. -/
theorem gravityLoop_count (block : Block) (x down : Int) (draws : Nat → ℚ) (id : Nat)
    (hdown : down = -1 ∨ down = 1) :
    ∀ (fuel i : Nat) (info : WorldInfo) (y : Int),
      (0 ≤ x ∧ x < GRID_SIZE ∧ 0 ≤ y ∧ y < GRID_SIZE) →
      (info.blocks (x, y)).id = block.id →
      materialCount (gravityLoop block x down draws fuel i info y) id
        = materialCount info id := by
  intro fuel
  induction fuel with
  | zero => intro i info y _ _; rfl
  | succ fuel ih =>
      intro i info y hin hid
      rw [gravityLoop]
      cases hb2 : info.get_block x (y + down) with
      | none => rfl
      | some block2 =>
          show materialCount
              (if (down : ℚ) * (block2.data.density - block.data.density) ≤ 0
                  ∨ (i : ℚ) + draws i
                      > 2 * ((down : ℚ) * (block2.data.density - block.data.density)) then info
                else gravityLoop block x down draws fuel (i + 1)
                  (mark_unstable (((info.set_block x y
                        (if block2.data.physics ≠ .None then block2.set .MOVED_THIS_STEP true
                         else block2)).set_block x (y + down)
                        (block.set .MOVED_THIS_STEP true)).swap_properties (.Block x y)
                      (.Block x (y + down))) x y block.id) (y + down)) id
            = materialCount info id
          by_cases hcond : (down : ℚ) * (block2.data.density - block.data.density) ≤ 0
              ∨ (i : ℚ) + draws i > 2 * ((down : ℚ) * (block2.data.density - block.data.density))
          · rw [if_pos hcond]
          · rw [if_neg hcond]
            obtain ⟨hbounds2, hb2eq⟩ := get_block_some info x (y + down) block2 hb2
            have hin2 : (x, y + down) ∈ gridCells := (mem_gridCells _ _).mpr hbounds2
            have hin1 : (x, y) ∈ gridCells := (mem_gridCells _ _).mpr hin
            have hne : y ≠ y + down := by omega
            set info2 := (info.set_block x y
                (if block2.data.physics ≠ .None then block2.set .MOVED_THIS_STEP true
                 else block2)).set_block x (y + down) (block.set .MOVED_THIS_STEP true)
              with hinfo2
            have hcount2 : materialCount info2 id = materialCount info id := by
              refine materialCount_swap info x y (y + down) _ _ id hin1 hin2 hne ?_ ?_
              · by_cases hph : block2.data.physics ≠ .None
                · rw [if_pos hph, Block.set_id, hb2eq]
                · rw [if_neg hph, hb2eq]
              · rw [Block.set_id, hid]
            have hid4 : ((mark_unstable (info2.swap_properties (.Block x y)
                (.Block x (y + down))) x y block.id).blocks (x, y + down)).id = block.id := by
              rw [mark_unstable_blocks_id, swap_properties_blocks, hinfo2, set_block_blocks,
                if_pos rfl, Block.set_id]
            rw [ih (i + 1) _ (y + down) hbounds2 hid4]
            have hcount3 : materialCount (mark_unstable (info2.swap_properties (.Block x y)
                (.Block x (y + down))) x y block.id) id = materialCount info2 id := by
              refine materialCount_congr _ _ id fun p => ?_
              rw [mark_unstable_blocks_id, swap_properties_blocks]
            rw [hcount3, hcount2]

/-- One gravity_update call conserves the material histogram. -/
theorem gravity_update_count (info : WorldInfo) (target : Target) (draws : Nat → ℚ)
    (id : Nat) :
    materialCount (gravity_update info target draws) id = materialCount info id := by
  cases target with
  | Entity e => rfl
  | Block x y =>
      show materialCount
          (match info.get_block x y with
           | none => info
           | some block =>
               if block.get .MOVED_THIS_STEP ∨ block.data.physics ≠ .Liquid then info
               else gravityLoop block x (if block.data.density ≥ 0 then -1 else 1) draws 5 0
                 info y) id
        = materialCount info id
      cases hb : info.get_block x y with
      | none => rfl
      | some block =>
          show materialCount
              (if block.get .MOVED_THIS_STEP ∨ block.data.physics ≠ .Liquid then info
               else gravityLoop block x (if block.data.density ≥ 0 then -1 else 1) draws 5 0
                 info y) id
            = materialCount info id
          by_cases hskip : block.get .MOVED_THIS_STEP ∨ block.data.physics ≠ .Liquid
          · rw [if_pos hskip]
          · rw [if_neg hskip]
            obtain ⟨hbounds, hbeq⟩ := get_block_some info x y block hb
            have hdown : (if block.data.density ≥ 0 then (-1 : Int) else 1) = -1
                ∨ (if block.data.density ≥ 0 then (-1 : Int) else 1) = 1 := by
              by_cases hd : block.data.density ≥ 0
              · exact Or.inl (if_pos hd)
              · exact Or.inr (if_neg hd)
            exact gravityLoop_count block x _ draws id hdown 5 0 info y hbounds
              (congrArg Block.id hbeq.symm)

/-- C8: a gravity-only pass never creates or destroys a block: it only
swaps cell contents (and flips physics flags), so the per-material
histogram over the grid is identical before and after the pass, for every
target list and every outcome of the random draws. -/
theorem c8_gravity_conserves_materials (info : WorldInfo)
    (targets : List (Target × (Nat → ℚ))) (id : Nat) :
    materialCount (gravityPass info targets) id = materialCount info id := by
  rw [gravityPass]
  induction targets generalizing info with
  | nil => rfl
  | cons td targets ih =>
      rw [List.foldl_cons]
      exact (ih _).trans (gravity_update_count info td.1 td.2 id)

end RogueMage
